import Mathlib

/-
  Verification of the directory-size accumulation core (and two peripheral
  solvers) of an Advent-of-Code 2022 repository.

  The Python sources are shallowly embedded:
  * `DirectoryStack` (data_structures.py) becomes a structure with explicit
    state passing; the top of the stack is the head of `directories`.
    Python's `float('inf')` sentinel for the size bound is modelled by
    `Option Nat` with `none` meaning unbounded.
  * fallible Python code (IndexError, ValueError, KeyError) returns `Option`.
  * `parse_cli_log` (solutions.py) is modelled by grouping the rstripped
    lines into maximal runs of command/output lines, then folding over the
    groups with the held `with_output` record, exactly as the generator does.
-/

namespace Aoc2022

/-! ## Python-like string primitives -/

/-- The characters Python's `str.rstrip` / `str.split()` treat as whitespace. -/
def pyIsSpace (c : Char) : Bool :=
  c == ' ' || c == '\t' || c == '\n' || c == '\r' || c == Char.ofNat 11 || c == Char.ofNat 12

/-- Python `line.rstrip()`: remove trailing whitespace. -/
def pyRstrip (s : String) : String :=
  ⟨(s.toList.reverse.dropWhile pyIsSpace).reverse⟩

/-- Python `s.startswith('$')`, the prompt test used by `parse_cli_log`. -/
def isCmdLine (s : String) : Bool :=
  match s.toList with
  | c :: _ => c == '$'
  | [] => false

/-- Python `s.split(maxsplit=2)`: split on whitespace runs, at most two splits,
the remainder (with its leading whitespace removed) kept whole. -/
def pySplitWs2 (s : String) : List String :=
  let cs0 := s.toList.dropWhile pyIsSpace
  if cs0 = [] then []
  else
    let t1 := cs0.takeWhile (fun c => !(pyIsSpace c))
    let r1 := (cs0.dropWhile (fun c => !(pyIsSpace c))).dropWhile pyIsSpace
    if r1 = [] then [⟨t1⟩]
    else
      let t2 := r1.takeWhile (fun c => !(pyIsSpace c))
      let r2 := (r1.dropWhile (fun c => !(pyIsSpace c))).dropWhile pyIsSpace
      if r2 = [] then [⟨t1⟩, ⟨t2⟩] else [⟨t1⟩, ⟨t2⟩, ⟨r2⟩]

/-- Python `line.split(' ', maxsplit=1)`: split at the first literal space. -/
def pySplitSpace1 (s : String) : List String :=
  let cs := s.toList
  let t := cs.takeWhile (fun c => c ≠ ' ')
  match cs.dropWhile (fun c => c ≠ ' ') with
  | [] => [⟨t⟩]
  | _ :: rest => [⟨t⟩, ⟨rest⟩]

/-- Decimal value of a digit string, as computed by Python `int` on digits. -/
def decVal (cs : List Char) : Nat :=
  cs.foldl (fun a c => a * 10 + (c.toNat - 48)) 0

/-- Python `s.isdigit()` restricted to ASCII: nonempty and all digits. -/
def pyIsDigits (s : String) : Bool :=
  !s.toList.isEmpty && s.toList.all Char.isDigit

/-- Python `int(s)`: strip whitespace, optional sign, decimal digits;
`none` models the `ValueError` raised on anything else. -/
def pyInt (s : String) : Option Int :=
  let cs := ((s.toList.dropWhile pyIsSpace).reverse.dropWhile pyIsSpace).reverse
  match cs with
  | '-' :: ds => if !ds.isEmpty && ds.all Char.isDigit then some (-(decVal ds : Int)) else none
  | '+' :: ds => if !ds.isEmpty && ds.all Char.isDigit then some ((decVal ds : Int)) else none
  | ds => if !ds.isEmpty && ds.all Char.isDigit then some ((decVal ds : Int)) else none

/-! ## DirectoryStack (data_structures.py) -/

/-- `DirectoryStack` state: `directories` holds the open frames with the top
of the stack at the head of the list (Python appends at the end of its list);
`max_size` is `none` for Python's `float('inf')`; `accumulator` is the running
total of popped sizes within the bound. -/
structure DirectoryStack where
  directories : List (String × Nat)
  max_size : Option Nat
  accumulator : Nat
deriving Repr, DecidableEq

/-- The constructor `DirectoryStack.__init__`: a falsy bound (`None` or `0`)
is replaced by `float('inf')`, i.e. `none`. -/
def DirectoryStack.mkStack (maxTracked : Option Nat) : DirectoryStack :=
  ⟨[], (match maxTracked with
        | none => none
        | some 0 => none
        | some n => some n), 0⟩

/-- The comparison `size <= self._max_size` where `none` plays `float('inf')`. -/
def leBound (n : Nat) : Option Nat → Bool
  | none => true
  | some m => decide (n ≤ m)

/-- `push`: append a frame; in this embedding the new frame becomes the head. -/
def DirectoryStack.push (s : DirectoryStack) (d : String) (n : Nat) : DirectoryStack :=
  ⟨(d, n) :: s.directories, s.max_size, s.accumulator⟩

/-- `update_size`: add to the size of the last frame pushed; `none` models the
IndexError raised on an empty stack. -/
def DirectoryStack.update_size (s : DirectoryStack) (n : Nat) : Option DirectoryStack :=
  match s.directories with
  | [] => none
  | (d, sz) :: rest => some ⟨(d, sz + n) :: rest, s.max_size, s.accumulator⟩

/-- The path `'/'.join(directory for directory, _ in self._directories)`:
frame names from root to top, separator-joined. -/
def DirectoryStack.pathOf (s : DirectoryStack) : String :=
  String.intercalate "/" (s.directories.reverse.map Prod.fst)

/-- The propagation step of `pop`: `if self._directories: self.update_size(size)`
applied to the frames remaining after removal. -/
def propagate (sz : Nat) : List (String × Nat) → List (String × Nat)
  | [] => []
  | (d2, s2) :: r => (d2, s2 + sz) :: r

/-- `pop`: compute the path before removal, remove the top frame, propagate its
size to the new top if one remains, and add the size to the accumulator when it
is within the bound.  `none` models the IndexError on an empty stack. -/
def DirectoryStack.pop (s : DirectoryStack) : Option (String × Nat × DirectoryStack) :=
  match s.directories with
  | [] => none
  | (_, sz) :: rest =>
    some (s.pathOf, sz,
      ⟨propagate sz rest, s.max_size,
       s.accumulator + (if leBound sz s.max_size then sz else 0)⟩)

/-! ## parse_prompt / parse_cli_log / parse_ls (solutions.py) -/

/-- `parse_prompt`: `_, command, *args = prompt_line.split(maxsplit=2)`;
`none` models the ValueError when the line has fewer than two fields. -/
def parse_prompt (line : String) : Option (String × String) :=
  match pySplitWs2 line with
  | _ :: command :: args => some (command, args.headD "")
  | _ => none

/-- Maximal runs of equal key, in order: the grouping `itertools.groupby`
performs on the rstripped log lines. -/
def groupByKey (key : α → Bool) : List α → List (Bool × List α)
  | [] => []
  | a :: as =>
    match groupByKey key as with
    | [] => [(key a, [a])]
    | (b, g) :: rest =>
      if key a = b then (b, a :: g) :: rest else (key a, [a]) :: (b, g) :: rest

/-- Parse every line of a command group, failing if any line fails. -/
def parsePrompts : List String → Option (List (String × String))
  | [] => some []
  | l :: ls => do
    let p ← parse_prompt l
    let ps ← parsePrompts ls
    some (p :: ps)

/-- The body of the `parse_cli_log` generator, folded over the groups.  A
command group yields all its records but the last, which is held back as
`withOutput`; an output group yields the held record with the output lines
appended.  Records are the tuples the generator yields, as `List String`. -/
def parse_cli_log_aux (withOutput : List String) :
    List (Bool × List String) → Option (List (List String))
  | [] => some []
  | (true, lines) :: rest => do
    let parsed ← parsePrompts lines
    match parsed.getLast? with
    | none => none
    | some lastP => do
      let recs ← parse_cli_log_aux [lastP.1, lastP.2] rest
      some ((parsed.dropLast.map (fun p => [p.1, p.2])) ++ recs)
  | (false, lines) :: rest => do
    let recs ← parse_cli_log_aux withOutput rest
    some ((withOutput ++ lines) :: recs)

/-- `parse_cli_log`: rstrip every line, group by the prompt test, fold. -/
def parse_cli_log (log : List String) : Option (List (List String)) :=
  parse_cli_log_aux [] (groupByKey isCmdLine (log.map pyRstrip))

/-- `parse_ls`: sum the numeric-prefixed sizes of the output lines; `none`
models the ValueError when a line does not split into exactly two fields. -/
def parse_ls : List String → Option Nat
  | [] => some 0
  | line :: rest =>
    match pySplitSpace1 line with
    | [pfx, _] => do
      let n ← parse_ls rest
      some ((if pyIsDigits pfx then decVal pfx.toList else 0) + n)
    | _ => none

/-! ## day_seven (solutions.py) -/

/-- Python dict assignment `d[k] = v`: overwrite in place or append. -/
def dictInsert (k : String) (v : Nat) : List (String × Nat) → List (String × Nat)
  | [] => [(k, v)]
  | (k2, v2) :: rest => if k = k2 then (k, v) :: rest else (k2, v2) :: dictInsert k v rest

/-- One iteration of the `match command, arg` statement in `day_seven`;
`none` models the ValueError of an unsupported command, a short record, or a
stack underflow. -/
def day_seven_step (st : DirectoryStack) (sizes : List (String × Nat)) :
    List String → Option (DirectoryStack × List (String × Nat))
  | "cd" :: "." :: _ => some (st, sizes)
  | "cd" :: ".." :: _ =>
    match st.pop with
    | none => none
    | some (p, sz, st2) => some (st2, dictInsert p sz sizes)
  | "cd" :: arg :: _ => some (st.push arg 0, sizes)
  | "ls" :: _ :: output =>
    match parse_ls output with
    | none => none
    | some n =>
      match st.update_size n with
      | none => none
      | some st2 => some (st2, sizes)
  | _ => none

/-- The record loop of `day_seven`. -/
def replayRecords (st : DirectoryStack) (sizes : List (String × Nat)) :
    List (List String) → Option (DirectoryStack × List (String × Nat))
  | [] => some (st, sizes)
  | r :: rs =>
    match day_seven_step st sizes r with
    | none => none
    | some (st2, sizes2) => replayRecords st2 sizes2 rs

/-- The `while directory_stack:` drain loop; the fuel is the stack length. -/
def drainAux : Nat → DirectoryStack → List (String × Nat) →
    DirectoryStack × List (String × Nat)
  | 0, st, sizes => (st, sizes)
  | n + 1, st, sizes =>
    match st.pop with
    | none => (st, sizes)
    | some (p, sz, st2) => drainAux n st2 (dictInsert p sz sizes)

/-- Replay the transcript from a fresh `DirectoryStack(100_000)` and drain. -/
def day_seven_replay (log : List String) :
    Option (DirectoryStack × List (String × Nat)) := do
  let recs ← parse_cli_log log
  let (st, sizes) ← replayRecords (DirectoryStack.mkStack (some 100000)) [] recs
  some (drainAux st.directories.length st sizes)

/-- The `DirectorySizes` mapping produced by the replay. -/
def day_seven_sizes (log : List String) : Option (List (String × Nat)) :=
  (day_seven_replay log).map Prod.snd

/-- The final computation of `day_seven` after the drain: free space, deficit,
and the minimum qualifying directory size; `none` models the KeyError when
the root path is missing. -/
def day_seven_final (sizes : List (String × Nat)) (acc : Nat) : Option (Nat × Nat) :=
  match List.lookup "/" sizes with
  | none => none
  | some rootSize =>
    let free : Int := 70000000 - (rootSize : Int)
    let sizeToFree : Int := 30000000 - free
    if sizeToFree ≤ 0 then some (acc, 0)
    else
      let qual : List Nat := (sizes.map Prod.snd).filter (fun s => decide (sizeToFree ≤ (s : Int)))
      some (acc, qual.min?.getD 0)

/-- `day_seven` end to end on an in-memory transcript. -/
def day_seven (log : List String) : Option (Nat × Nat) := do
  let (st, sizes) ← day_seven_replay log
  day_seven_final sizes st.accumulator

/-! ## day_one (solutions.py) -/

/-- One line of the `day_one` loop.  The heap `top_calories` is represented by
the sorted list of its elements: `heapq` keeps the minimum at index 0, and the
observations the code makes (`top[0]`, `heapreplace` = pop-min-push, final
`sum`) depend only on the multiset.  `none` models the IndexError of `top[0]`
when `num_elves = 0`. -/
def day_one_go : List String → List Int → Int → Int → Option (Int × Int)
  | [], top, mx, _ => some (mx, top.sum)
  | line :: rest, top, mx, cur =>
    let cur2 := match pyInt line with
      | some v => cur + v
      | none => 0
    let mx2 := max mx cur2
    match top with
    | [] => none
    | m :: t =>
      day_one_go rest (if m < cur2 then List.orderedInsert (· ≤ ·) cur2 t else m :: t) mx2 cur2

/-- `day_one` on an in-memory list of lines. -/
def day_one (lines : List String) (numElves : Nat) : Option (Int × Int) :=
  day_one_go lines (List.replicate numElves 0) 0 0

/-- Modelled from the spec: group sums of the calorie input, a non-numeric
line closing the current group (running total reset to 0).  Used as the
specification side for the `day_one` claim. -/
def specGroupSums : List String → Int → List Int
  | [], cur => [cur]
  | line :: rest, cur =>
    match pyInt line with
    | some v => specGroupSums rest (cur + v)
    | none => cur :: specGroupSums rest 0

/-- Modelled from the spec: sum of the top `n` group sums. -/
def specTopSum (lines : List String) (n : Nat) : Int :=
  ((List.insertionSort (fun a b => b ≤ a) (specGroupSums lines 0)).take n).sum

/-! ## first_unique_window (solutions.py) -/

/-- The last `n` elements of a list: the contents of a `deque(maxlen=n)`. -/
def lastN (n : Nat) (l : List Char) : List Char := l.drop (l.length - n)

/-- The loop of `first_unique_window`: `buf` is the deque, `idx` the enumerate
counter; `len(set(buffer))` is the number of distinct elements, `dedup.length`. -/
def fuwGo (n : Nat) : List Char → List Char → Nat → Int
  | [], _, _ => -1
  | c :: cs, buf, idx =>
    if buf.dedup.length = n then (idx : Int)
    else fuwGo n cs (lastN n (buf ++ [c])) (idx + 1)

/-- `first_unique_window` on a character list. -/
def first_unique_window (l : List Char) (n : Nat) : Int := fuwGo n l [] 0

/-- `day_six`: the two window sizes used on the signal. -/
def day_six (signal : String) : Int × Int :=
  (first_unique_window signal.toList 4, first_unique_window signal.toList 14)

/-! ## Operation sequences over DirectoryStack -/

/-- The public operations of `DirectoryStack`, for stating sequence-level
invariants. -/
inductive DirOp where
  | push (d : String) (n : Nat)
  | update (n : Nat)
  | pop
deriving Repr, DecidableEq

/-- Run a sequence of operations, collecting the popped sizes in order;
`none` models any underflow. -/
def runOps (s : DirectoryStack) : List DirOp → Option (DirectoryStack × List Nat)
  | [] => some (s, [])
  | DirOp.push d n :: ops => runOps (s.push d n) ops
  | DirOp.update n :: ops =>
    match s.update_size n with
    | none => none
    | some s2 => runOps s2 ops
  | DirOp.pop :: ops =>
    match s.pop with
    | none => none
    | some (_, sz, s2) =>
      match runOps s2 ops with
      | none => none
      | some (sf, pops) => some (sf, sz :: pops)

/-- Push a whole list of frames. -/
def pushAll (s : DirectoryStack) (ps : List (String × Nat)) : DirectoryStack :=
  ps.foldl (fun st p => st.push p.1 p.2) s

/-- Pop `n` times, failing on underflow. -/
def popTimes : Nat → DirectoryStack → Option DirectoryStack
  | 0, s => some s
  | n + 1, s =>
    match s.pop with
    | none => none
    | some (_, _, s2) => popTimes n s2

/-! ## Helpers for stating the parsing claims -/

/-- Concatenation of the line groups, in order. -/
def joinGroups (gs : List (Bool × List α)) : List α :=
  gs.foldr (fun g acc => g.2 ++ acc) []

/-- Number of lines sitting in command groups. -/
def cmdCount (gs : List (Bool × List α)) : Nat :=
  gs.foldr (fun g acc => (if g.1 then g.2.length else 0) + acc) 0

/-- The nested end-to-end scenario transcript of the specification. -/
def nestedTranscript : List String :=
  ["$ cd /", "$ ls", "dir b", "100 a.txt", "$ cd b", "$ ls", "200 c.txt", "$ cd .."]

end Aoc2022

namespace Aoc2022

/-! ## Basic facts about DirectoryStack operations -/

theorem propagate_length (sz : Nat) (l : List (String × Nat)) :
    (propagate sz l).length = l.length := by
  cases l with
  | nil => rfl
  | cons fr r => obtain ⟨d2, z2⟩ := fr; rfl

theorem update_size_fields (s : DirectoryStack) (n : Nat) (s2 : DirectoryStack)
    (h : s.update_size n = some s2) :
    s2.max_size = s.max_size ∧ s2.accumulator = s.accumulator := by
  cases hd : s.directories with
  | nil => simp [DirectoryStack.update_size, hd] at h
  | cons fr rest =>
    obtain ⟨d, sz⟩ := fr
    simp [DirectoryStack.update_size, hd] at h
    subst h
    exact ⟨rfl, rfl⟩

theorem pop_fields (s : DirectoryStack) (p : String) (sz : Nat) (s2 : DirectoryStack)
    (h : s.pop = some (p, sz, s2)) :
    s2.max_size = s.max_size ∧
    s2.accumulator = s.accumulator + (if leBound sz s.max_size then sz else 0) ∧
    s2.directories.length + 1 = s.directories.length := by
  cases hd : s.directories with
  | nil => simp [DirectoryStack.pop, hd] at h
  | cons fr rest =>
    obtain ⟨d, sz0⟩ := fr
    simp [DirectoryStack.pop, hd] at h
    obtain ⟨hp, hsz, hs2⟩ := h
    subst hsz
    rw [← hs2]
    refine ⟨rfl, rfl, ?_⟩
    simp [propagate_length]

theorem pop_of_cons (s : DirectoryStack) (d : String) (sz : Nat)
    (rest : List (String × Nat)) (h : s.directories = (d, sz) :: rest) :
    s.pop = some (s.pathOf, sz,
      ⟨propagate sz rest, s.max_size,
       s.accumulator + (if leBound sz s.max_size then sz else 0)⟩) := by
  simp [DirectoryStack.pop, h]

/-- Claim C1: for every non-empty DirectoryStack, `pop` returns the pair
`(path, size)` where `path` joins all frame names from the root frame to the
top frame (computed before removal) with the separator, and `size` is the
removed frame's size; whenever a frame remains, the popped size is added to
the new top frame's size. -/
theorem pop_path_and_propagation (s : DirectoryStack) (d : String) (sz : Nat)
    (rest : List (String × Nat)) (h : s.directories = (d, sz) :: rest) :
    ∃ s2,
      s.pop = some (String.intercalate "/" (((d, sz) :: rest).reverse.map Prod.fst), sz, s2) ∧
      (∀ d2 z2 r, rest = (d2, z2) :: r → s2.directories = (d2, z2 + sz) :: r) ∧
      (rest = [] → s2.directories = []) := by
  refine ⟨⟨propagate sz rest, s.max_size,
    s.accumulator + (if leBound sz s.max_size then sz else 0)⟩, ?_, ?_, ?_⟩
  · have hp := pop_of_cons s d sz rest h
    rw [hp]
    have hpath : s.pathOf = String.intercalate "/" (((d, sz) :: rest).reverse.map Prod.fst) := by
      simp [DirectoryStack.pathOf, h]
    rw [hpath]
  · intro d2 z2 r hr
    subst hr
    rfl
  · intro hr
    subst hr
    rfl

/-- Witness for C1, realising the propagation scenario of the claim:
push parent (size 0), push child (size 0), update_size 5, pop. -/
theorem pop_path_and_propagation_witness :
    (((DirectoryStack.mkStack none).push "parent" 0).push "child" 0).update_size 5 =
      some ⟨[("child", 5), ("parent", 0)], none, 0⟩ ∧
    (∃ s2, (⟨[("child", 5), ("parent", 0)], none, 0⟩ : DirectoryStack).pop =
        some ("parent/child", 5, s2) ∧ s2.directories = [("parent", 5)]) := by
  refine ⟨rfl, ?_⟩
  obtain ⟨s2, h1, h2, _⟩ :=
    pop_path_and_propagation ⟨[("child", 5), ("parent", 0)], none, 0⟩ "child" 5
      [("parent", 0)] rfl
  exact ⟨s2, h1, h2 "parent" 0 [] rfl⟩

/-! ## Accumulator over operation sequences (C2, C10) -/

theorem runOps_accumulator : ∀ (ops : List DirOp) (s sf : DirectoryStack) (pops : List Nat),
    runOps s ops = some (sf, pops) →
    sf.max_size = s.max_size ∧
    sf.accumulator = s.accumulator + (pops.filter (fun z => leBound z s.max_size)).sum := by
  intro ops
  induction ops with
  | nil =>
    intro s sf pops h
    simp [runOps] at h
    obtain ⟨h1, h2⟩ := h
    subst h1
    subst h2
    simp
  | cons op ops ih =>
    intro s sf pops h
    cases op with
    | push d n =>
      have h2 := ih _ _ _ h
      simpa [DirectoryStack.push] using h2
    | update n =>
      simp only [runOps] at h
      cases hu : s.update_size n with
      | none => rw [hu] at h; simp at h
      | some s1 =>
        rw [hu] at h
        have hf := update_size_fields s n s1 hu
        have h2 := ih _ _ _ h
        rw [hf.1, hf.2] at h2
        exact h2
    | pop =>
      simp only [runOps] at h
      cases hp : s.pop with
      | none => rw [hp] at h; simp at h
      | some triple =>
        obtain ⟨p, sz, s1⟩ := triple
        rw [hp] at h
        dsimp only at h
        cases hr : runOps s1 ops with
        | none => rw [hr] at h; simp at h
        | some pair =>
          obtain ⟨sf1, pops1⟩ := pair
          rw [hr] at h
          simp at h
          obtain ⟨h1, h2⟩ := h
          subst h1
          have hf := pop_fields s p sz s1 hp
          have h3 := ih _ _ _ hr
          rw [hf.1, hf.2.1] at h3
          refine ⟨h3.1, ?_⟩
          rw [← h2, List.filter_cons, h3.2]
          cases hb : leBound sz s.max_size with
          | false => simp [hb]
          | true => simp [hb]; omega

/-- Counterexample to claim C2 as stated: with `max_tracked_size = 0` the
constructor replaces the bound by infinity, so a popped size of 5 — which
exceeds the bound 0 — is still added to the accumulator. -/
theorem accumulator_bound_zero_counterexample :
    ((DirectoryStack.mkStack (some 0)).push "a" 5).pop =
      some ("a", 5, ⟨[], none, 5⟩) ∧ ¬ ((5 : Nat) ≤ 0) := by
  exact ⟨rfl, by decide⟩

/-- Claim C2 (amended): for a DirectoryStack constructed with a nonzero bound
`b`, after any successful sequence of operations the accumulator equals the
sum of exactly those popped sizes that are at most `b` — it changes only on
pops, increases by the popped size iff that size is within the bound, and
never includes a popped size exceeding the bound. -/
theorem accumulator_tracks_bound (b : Nat) (hb : b ≠ 0) (ops : List DirOp)
    (sf : DirectoryStack) (pops : List Nat)
    (h : runOps (DirectoryStack.mkStack (some b)) ops = some (sf, pops)) :
    sf.accumulator = (pops.filter (fun z => decide (z ≤ b))).sum := by
  have hmf : (DirectoryStack.mkStack (some b)).max_size = some b := by
    cases b with
    | zero => exact absurd rfl hb
    | succ n => rfl
  have h2 := runOps_accumulator ops _ _ _ h
  have h3 := h2.2
  rw [hmf] at h3
  simpa [DirectoryStack.mkStack, leBound] using h3

/-- Witness for C2 (amended), the accumulator scenario of the specification:
bound 100, popped sizes 50, 150, 30 give accumulator 80. -/
theorem accumulator_tracks_bound_witness :
    runOps (DirectoryStack.mkStack (some 100))
      [DirOp.push "a" 50, DirOp.pop, DirOp.push "b" 150, DirOp.pop,
       DirOp.push "c" 30, DirOp.pop] = some (⟨[], some 100, 80⟩, [50, 150, 30]) ∧
    (⟨[], some 100, 80⟩ : DirectoryStack).accumulator =
      (([50, 150, 30].filter (fun z => decide (z ≤ 100))).sum) := by
  refine ⟨rfl, ?_⟩
  exact accumulator_tracks_bound 100 (by decide)
    [DirOp.push "a" 50, DirOp.pop, DirOp.push "b" 150, DirOp.pop,
     DirOp.push "c" 30, DirOp.pop] ⟨[], some 100, 80⟩ [50, 150, 30] rfl

/-- Claim C10: a falsy bound (`0` or `None`) is replaced by infinity, so
tracking is unbounded: every popped size, however large, is added to the
accumulator. -/
theorem unbounded_when_falsy :
    (DirectoryStack.mkStack none).max_size = none ∧
    (DirectoryStack.mkStack (some 0)).max_size = none ∧
    ∀ (s : DirectoryStack), s.max_size = none →
      ∀ (d : String) (sz : Nat) (rest : List (String × Nat)),
        s.directories = (d, sz) :: rest →
        ∃ p s2, s.pop = some (p, sz, s2) ∧ s2.accumulator = s.accumulator + sz := by
  refine ⟨rfl, rfl, ?_⟩
  intro s hm d sz rest hd
  refine ⟨s.pathOf, _, pop_of_cons s d sz rest hd, ?_⟩
  simp [hm, leBound]

/-- Witness for C10 at a size (7) far above the constructed bound (0). -/
theorem unbounded_when_falsy_witness :
    ∃ p s2, ((DirectoryStack.mkStack (some 0)).push "a" 7).pop = some (p, 7, s2) ∧
      s2.accumulator = ((DirectoryStack.mkStack (some 0)).push "a" 7).accumulator + 7 :=
  unbounded_when_falsy.2.2 _ rfl "a" 7 [] rfl

/-! ## Underflow (C6) -/

theorem pushAll_length : ∀ (ps : List (String × Nat)) (s : DirectoryStack),
    (pushAll s ps).directories.length = s.directories.length + ps.length := by
  intro ps
  induction ps with
  | nil => intro s; simp [pushAll]
  | cons p ps ih =>
    intro s
    have : pushAll s (p :: ps) = pushAll (s.push p.1 p.2) ps := rfl
    rw [this, ih]
    simp [DirectoryStack.push]
    omega

theorem popTimes_drains : ∀ (k : Nat) (s : DirectoryStack), s.directories.length = k →
    ∃ s2, popTimes k s = some s2 ∧ s2.directories = [] := by
  intro k
  induction k with
  | zero =>
    intro s h
    exact ⟨s, rfl, List.length_eq_zero.mp h⟩
  | succ k ih =>
    intro s h
    cases hd : s.directories with
    | nil => rw [hd] at h; simp at h
    | cons fr rest =>
      obtain ⟨d, sz⟩ := fr
      have hp := pop_of_cons s d sz rest hd
      have hlen2 : (⟨propagate sz rest, s.max_size,
          s.accumulator + (if leBound sz s.max_size then sz else 0)⟩ :
          DirectoryStack).directories.length = k := by
        show (propagate sz rest).length = k
        rw [propagate_length]
        rw [hd] at h
        simp at h
        omega
      obtain ⟨s2, h2, h3⟩ := ih _ hlen2
      refine ⟨s2, ?_, h3⟩
      simp only [popTimes, hp]
      exact h2

/-- Claim C6: popping an empty DirectoryStack or updating a size with no open
directory fails (returns `none`, modelling the IndexError), and popping more
times than frames were pushed fails: after pushing `ps` frames and popping
`ps.length` times, one further pop or update fails. -/
theorem underflow_fails :
    (∀ s : DirectoryStack, s.directories = [] →
      s.pop = none ∧ ∀ n, s.update_size n = none) ∧
    (∀ (b : Option Nat) (ps : List (String × Nat)) (n : Nat),
      ∃ s2, popTimes ps.length (pushAll (DirectoryStack.mkStack b) ps) = some s2 ∧
        s2.pop = none ∧ s2.update_size n = none) := by
  constructor
  · intro s h
    exact ⟨by simp [DirectoryStack.pop, h], fun n => by simp [DirectoryStack.update_size, h]⟩
  · intro b ps n
    have hlen : (pushAll (DirectoryStack.mkStack b) ps).directories.length = ps.length := by
      rw [pushAll_length]
      simp [DirectoryStack.mkStack]
    obtain ⟨s2, h1, h2⟩ := popTimes_drains ps.length _ hlen
    exact ⟨s2, h1, by simp [DirectoryStack.pop, h2], by simp [DirectoryStack.update_size, h2]⟩

/-- Witness for C6: one push followed by one pop empties the stack, and the
next pop and update both fail; popping the fresh empty stack fails too. -/
theorem underflow_fails_witness :
    ((DirectoryStack.mkStack none).pop = none ∧
      (DirectoryStack.mkStack none).update_size 3 = none) ∧
    ∃ s2, popTimes 1 (pushAll (DirectoryStack.mkStack none) [("a", 1)]) = some s2 ∧
      s2.pop = none ∧ s2.update_size 3 = none := by
  refine ⟨⟨(underflow_fails.1 _ rfl).1, (underflow_fails.1 _ rfl).2 3⟩, ?_⟩
  exact underflow_fails.2 none [("a", 1)] 3

/-! ## Determinism (C7) -/

/-- Claim C7: the replay is deterministic — it is a pure function of the
transcript, each run starting from a fresh `DirectoryStack`, so two runs on
the same transcript produce identical DirectorySizes mappings and identical
final accumulator values. -/
theorem replay_deterministic (log1 log2 : List String) (h : log1 = log2) :
    day_seven_replay log1 = day_seven_replay log2 ∧ day_seven log1 = day_seven log2 := by
  subst h
  exact ⟨rfl, rfl⟩

/-- Witness for C7 on the nested scenario transcript. -/
theorem replay_deterministic_witness :
    day_seven_replay nestedTranscript = day_seven_replay nestedTranscript ∧
    day_seven nestedTranscript = day_seven nestedTranscript :=
  replay_deterministic nestedTranscript nestedTranscript rfl

/-! ## Nested end-to-end scenario (C4) -/

/-- Counterexample to claim C4 as stated: the replay records directory `b`
under the key `"//b"` (the root frame is named `"/"` and the names are joined
with `"/"`), so the mapping has no entry at the literal path `"/b"`. -/
theorem nested_scenario_slash_b_missing :
    day_seven_sizes nestedTranscript = some [("//b", 200), ("/", 300)] ∧
    List.lookup "/b" [("//b", 200), ("/", 300)] = none := ⟨rfl, rfl⟩

/-- Claim C4 (amended): the nested scenario produces a DirectorySizes mapping
whose entry for directory `b` — keyed by `"//b"`, the join of the frame names
`"/"` and `"b"` — has size 200, and whose root entry `"/"` has size 300. -/
theorem nested_scenario_sizes :
    day_seven_sizes nestedTranscript = some [("//b", 200), ("/", 300)] ∧
    List.lookup "//b" [("//b", 200), ("/", 300)] = some 200 ∧
    List.lookup "/" [("//b", 200), ("/", 300)] = some 300 := ⟨rfl, rfl, rfl⟩

/-! ## Final computation of day_seven (C5) -/

/-- Claim C5: with free space = capacity − recorded root size, the
directory-to-delete answer is 0 when free space already meets the requirement;
otherwise it is the minimum recorded directory size that is at least the
deficit, and 0 when no recorded size qualifies. -/
theorem day_seven_final_delete_spec (sizes : List (String × Nat)) (acc r : Nat)
    (ans : Nat × Nat) (hroot : List.lookup "/" sizes = some r)
    (hrun : day_seven_final sizes acc = some ans) :
    ((30000000 : Int) ≤ 70000000 - (r : Int) → ans.2 = 0) ∧
    (70000000 - (r : Int) < 30000000 →
      ((∀ v ∈ sizes.map Prod.snd, (v : Int) < 30000000 - (70000000 - (r : Int))) →
        ans.2 = 0) ∧
      ((∃ v ∈ sizes.map Prod.snd, 30000000 - (70000000 - (r : Int)) ≤ (v : Int)) →
        ans.2 ∈ sizes.map Prod.snd ∧
        30000000 - (70000000 - (r : Int)) ≤ ((ans.2 : Nat) : Int) ∧
        ∀ v ∈ sizes.map Prod.snd, 30000000 - (70000000 - (r : Int)) ≤ (v : Int) →
          ans.2 ≤ v)) := by
  unfold day_seven_final at hrun
  rw [hroot] at hrun
  dsimp only at hrun
  split at hrun
  case isTrue hc =>
    have hans := Option.some.inj hrun
    subst hans
    constructor
    · intro _
      rfl
    · intro hlt
      exact absurd hc (by omega)
  case isFalse hc =>
    have hans := Option.some.inj hrun
    subst hans
    constructor
    · intro hge
      exact absurd hge (by omega)
    · intro _
      constructor
      · intro hall
        have hnil : (sizes.map Prod.snd).filter
            (fun v : Nat => decide ((30000000 : Int) - (70000000 - (r : Int)) ≤ (v : Int))) = [] := by
          refine List.filter_eq_nil_iff.mpr ?_
          intro v hv
          have := hall v hv
          simp only [decide_eq_true_eq]
          omega
        show ((sizes.map Prod.snd).filter _).min?.getD 0 = 0
        rw [hnil]
        rfl
      · intro hex
        obtain ⟨v, hv, hvq⟩ := hex
        have hvmem : v ∈ (sizes.map Prod.snd).filter
            (fun w : Nat => decide ((30000000 : Int) - (70000000 - (r : Int)) ≤ (w : Int))) := by
          rw [List.mem_filter]
          exact ⟨hv, by simpa using hvq⟩
        obtain ⟨m, hm⟩ : ∃ m, ((sizes.map Prod.snd).filter
            (fun w : Nat => decide ((30000000 : Int) - (70000000 - (r : Int)) ≤ (w : Int)))).min? =
            some m := by
          cases hq : (sizes.map Prod.snd).filter
              (fun w : Nat => decide ((30000000 : Int) - (70000000 - (r : Int)) ≤ (w : Int))) with
          | nil => rw [hq] at hvmem; exact absurd hvmem (List.not_mem_nil v)
          | cons a as => exact ⟨_, List.min?_cons⟩
        have hms := (List.min?_eq_some_iff (fun a => le_refl a) (fun a b => min_choice a b)
          (fun a b c => le_min_iff)).mp hm
        obtain ⟨hmmem, hmle⟩ := hms
        rw [List.mem_filter] at hmmem
        have hans2 : (acc, ((sizes.map Prod.snd).filter
            (fun w : Nat => decide ((30000000 : Int) - (70000000 - (r : Int)) ≤ (w : Int)))).min?.getD
            0).2 = m := by
          show ((sizes.map Prod.snd).filter
            (fun w : Nat =>
              decide ((30000000 : Int) - (70000000 - (r : Int)) ≤ (w : Int)))).min?.getD 0 = m
          rw [hm]
          rfl
        rw [hans2]
        refine ⟨hmmem.1, by simpa using hmmem.2, ?_⟩
        intro w hw hwq
        exact hmle w (List.mem_filter.mpr ⟨hw, by simpa using hwq⟩)

/-- Witness for C5: root size 1000 leaves ample free space, so the answer
is 0. -/
theorem day_seven_final_delete_spec_witness :
    List.lookup "/" [("/", 1000)] = some 1000 ∧
    day_seven_final [("/", 1000)] 0 = some (0, 0) ∧
    ((0, 0) : Nat × Nat).2 = 0 := by
  refine ⟨rfl, rfl, ?_⟩
  exact (day_seven_final_delete_spec [("/", 1000)] 0 1000 (0, 0) rfl rfl).1 (by decide)

/-! ## Record counting in parse_cli_log (C3) -/

theorem parsePrompts_length : ∀ (ls : List String) (ps : List (String × String)),
    parsePrompts ls = some ps → ps.length = ls.length := by
  intro ls
  induction ls with
  | nil =>
    intro ps h
    simp [parsePrompts] at h
    subst h
    rfl
  | cons l ls ih =>
    intro ps h
    cases hp : parse_prompt l with
    | none => simp [parsePrompts, hp] at h
    | some p =>
      cases hps : parsePrompts ls with
      | none => simp [parsePrompts, hp, hps] at h
      | some ps2 =>
        simp [parsePrompts, hp, hps] at h
        subst h
        simp [ih ps2 hps]

theorem groupByKey_join (key : α → Bool) : ∀ l : List α, joinGroups (groupByKey key l) = l := by
  intro l
  induction l with
  | nil => rfl
  | cons a as ih =>
    simp only [groupByKey]
    cases hg : groupByKey key as with
    | nil =>
      rw [hg] at ih
      simp only [joinGroups, List.foldr] at ih ⊢
      rw [← ih]
      rfl
    | cons g rest =>
      obtain ⟨b, grp⟩ := g
      rw [hg] at ih
      by_cases hk : key a = b
      · simp only [hk, if_true]
        simp only [joinGroups, List.foldr] at ih ⊢
        rw [← ih]
        rfl
      · simp only [hk, if_false]
        simp only [joinGroups, List.foldr] at ih ⊢
        rw [← ih]
        rfl

theorem groupByKey_keys (key : α → Bool) : ∀ l : List α, ∀ g ∈ groupByKey key l,
    g.2 ≠ [] ∧ ∀ x ∈ g.2, key x = g.1 := by
  intro l
  induction l with
  | nil => intro g hg; simp [groupByKey] at hg
  | cons a as ih =>
    intro g hg
    simp only [groupByKey] at hg
    cases hgk : groupByKey key as with
    | nil =>
      rw [hgk] at hg
      simp at hg
      subst hg
      refine ⟨by simp, ?_⟩
      intro x hx
      simp at hx
      subst hx
      rfl
    | cons g0 rest =>
      obtain ⟨b, grp⟩ := g0
      rw [hgk] at hg
      have hprev := ih
      rw [hgk] at hprev
      by_cases hk : key a = b
      · simp only [hk, if_true] at hg
        rcases List.mem_cons.mp hg with h1 | h2
        · subst h1
          have hb := hprev (b, grp) (List.mem_cons_self _ _)
          refine ⟨by simp, ?_⟩
          intro x hx
          rcases List.mem_cons.mp hx with h3 | h4
          · subst h3; exact hk
          · exact hb.2 x h4
        · exact hprev g (List.mem_cons_of_mem _ h2)
      · simp only [hk, if_false] at hg
        rcases List.mem_cons.mp hg with h1 | h2
        · subst h1
          refine ⟨by simp, ?_⟩
          intro x hx
          simp at hx
          subst hx
          rfl
        · exact hprev g h2

theorem groupByKey_chain (key : α → Bool) :
    ∀ l : List α, List.Chain' (fun x y => x.1 ≠ y.1) (groupByKey key l) := by
  intro l
  induction l with
  | nil => simp [groupByKey]
  | cons a as ih =>
    simp only [groupByKey]
    cases hgk : groupByKey key as with
    | nil => simp
    | cons g0 rest =>
      obtain ⟨b, grp⟩ := g0
      rw [hgk] at ih
      by_cases hk : key a = b
      · simp only [hk, if_true]
        have hiff : ∀ y : Bool × List α, ((b, a :: grp) : Bool × List α).1 ≠ y.1 ↔
            ((b, grp) : Bool × List α).1 ≠ y.1 := by intro y; rfl
        rw [List.chain'_cons'] at ih ⊢
        exact ⟨fun y hy => (hiff y).mpr (ih.1 y hy), ih.2⟩
      · simp only [hk, if_false]
        rw [List.chain'_cons]
        exact ⟨hk, ih⟩

theorem groupByKey_head (key : α → Bool) (a : α) (as : List α) :
    ∃ g gs, groupByKey key (a :: as) = (key a, a :: g) :: gs := by
  simp only [groupByKey]
  cases hgk : groupByKey key as with
  | nil => exact ⟨[], [], rfl⟩
  | cons g0 rest =>
    obtain ⟨b, grp⟩ := g0
    by_cases hk : key a = b
    · refine ⟨grp, rest, ?_⟩
      simp [hk]
    · refine ⟨[], (b, grp) :: rest, ?_⟩
      simp [hk]

theorem cmdCount_eq_countP (key : α → Bool) : ∀ gs : List (Bool × List α),
    (∀ g ∈ gs, ∀ x ∈ g.2, key x = g.1) →
    cmdCount gs = (joinGroups gs).countP key := by
  intro gs
  induction gs with
  | nil => intro _; rfl
  | cons g rest ih =>
    intro hprop
    obtain ⟨b, grp⟩ := g
    have hg := hprop (b, grp) (List.mem_cons_self _ _)
    have hrest := ih (fun g2 hg2 => hprop g2 (List.mem_cons_of_mem _ hg2))
    have hjoin : joinGroups ((b, grp) :: rest) = grp ++ joinGroups rest := rfl
    have hcnt : cmdCount ((b, grp) :: rest) = (if b then grp.length else 0) + cmdCount rest := rfl
    rw [hjoin, hcnt, List.countP_append, hrest]
    cases b with
    | true =>
      have : grp.countP key = grp.length := List.countP_eq_length.mpr (fun x hx => hg x hx)
      simp [this]
    | false =>
      have : grp.countP key = 0 := List.countP_eq_zero.mpr (fun x hx => by
        have := hg x hx
        simp [this])
      simp [this]

theorem joinGroups_getLastKey (key : α → Bool) : ∀ gs : List (Bool × List α),
    (∀ g ∈ gs, g.2 ≠ [] ∧ ∀ x ∈ g.2, key x = g.1) →
    ∀ z, (joinGroups gs).getLast? = some z →
    gs.getLast?.map Prod.fst = some (key z) := by
  intro gs
  induction gs with
  | nil => intro _ z hz; simp [joinGroups] at hz
  | cons g rest ih =>
    intro hprop z hz
    obtain ⟨b, grp⟩ := g
    have hg := hprop (b, grp) (List.mem_cons_self _ _)
    cases rest with
    | nil =>
      have hjoin : joinGroups [(b, grp)] = grp ++ [] := rfl
      rw [hjoin, List.append_nil] at hz
      have hzmem : z ∈ grp := List.mem_of_mem_getLast? hz
      have : key z = b := hg.2 z hzmem
      simp [this]
    | cons g2 rest2 =>
      have hjoin : joinGroups ((b, grp) :: g2 :: rest2) = grp ++ joinGroups (g2 :: rest2) := rfl
      rw [hjoin] at hz
      have hg2 := hprop g2 (List.mem_cons_of_mem _ (List.mem_cons_self _ _))
      have hne : joinGroups (g2 :: rest2) ≠ [] := by
        have : joinGroups (g2 :: rest2) = g2.2 ++ joinGroups rest2 := rfl
        rw [this]
        intro hcontra
        exact hg2.1 (List.append_eq_nil.mp hcontra).1
      rw [List.getLast?_append] at hz
      have hsome : (joinGroups (g2 :: rest2)).getLast?.isSome := by
        rw [List.getLast?_isSome]
        exact hne
      obtain ⟨z2, hz2⟩ := Option.isSome_iff_exists.mp hsome
      rw [hz2] at hz
      simp at hz
      subst hz
      have hres := ih (fun g3 hg3 => hprop g3 (List.mem_cons_of_mem _ hg3)) z2 hz2
      rw [List.getLast?_cons_cons]
      exact hres

theorem parse_cli_log_aux_length :
    ∀ (gs : List (Bool × List String)) (w : List String) (recs : List (List String)),
      List.Chain' (fun x y => x.1 ≠ y.1) gs →
      gs.getLast?.map Prod.fst = some false →
      parse_cli_log_aux w gs = some recs →
      recs.length = cmdCount gs + (if gs.head?.map Prod.fst = some false then 1 else 0) := by
  intro gs
  induction gs with
  | nil => intro w recs _ hlast _; simp at hlast
  | cons g rest ih =>
    intro w recs hchain hlast h
    obtain ⟨b, ls⟩ := g
    cases rest with
    | nil =>
      cases b with
      | true => simp at hlast
      | false =>
        cases har : parse_cli_log_aux w [] with
        | none => simp [parse_cli_log_aux] at har
        | some recs0 =>
          have har0 : recs0 = [] := by simpa [parse_cli_log_aux] using har
          subst har0
          simp [parse_cli_log_aux, har] at h
          subst h
          rfl
    | cons g2 rest2 =>
      have hchain2 := List.chain'_cons.mp hchain
      have hlast2 : (g2 :: rest2).getLast?.map Prod.fst = some false := by
        rw [List.getLast?_cons_cons] at hlast
        exact hlast
      cases b with
      | true =>
        cases hpp : parsePrompts ls with
        | none => simp [parse_cli_log_aux, hpp] at h
        | some parsed =>
          cases hgl : parsed.getLast? with
          | none => simp [parse_cli_log_aux, hpp, hgl] at h
          | some lastP =>
            cases har : parse_cli_log_aux [lastP.1, lastP.2] (g2 :: rest2) with
            | none => simp [parse_cli_log_aux, hpp, hgl, har] at h
            | some recs2 =>
              simp [parse_cli_log_aux, hpp, hgl, har] at h
              subst h
              have hlen := parsePrompts_length ls parsed hpp
              have hne : parsed ≠ [] := by
                intro hcontra
                rw [hcontra] at hgl
                simp at hgl
              have hpos : 1 ≤ ls.length := by
                rw [← hlen]
                exact List.length_pos.mpr hne
              have hg2false : g2.1 = false := by
                have := hchain2.1
                cases hb2 : g2.1 with
                | false => rfl
                | true => rw [hb2] at this; exact absurd rfl this
              have hih := ih [lastP.1, lastP.2] recs2 hchain2.2 hlast2 har
              have hhead2 : (g2 :: rest2).head?.map Prod.fst = some false := by
                simp [hg2false]
              rw [hhead2] at hih
              simp only [if_pos rfl] at hih
              have hcnt : cmdCount ((true, ls) :: g2 :: rest2) =
                  ls.length + cmdCount (g2 :: rest2) := by simp [cmdCount]
              rw [hcnt]
              simp only [List.length_append, List.length_map, List.length_dropLast, hlen, hih]
              have hhead : ((true, ls) :: g2 :: rest2).head?.map Prod.fst = some true := rfl
              rw [hhead]
              simp
              omega
      | false =>
        cases har : parse_cli_log_aux w (g2 :: rest2) with
        | none => simp [parse_cli_log_aux, har] at h
        | some recs2 =>
          simp [parse_cli_log_aux, har] at h
          subst h
          have hg2true : g2.1 = true := by
            have := hchain2.1
            cases hb2 : g2.1 with
            | true => rfl
            | false => rw [hb2] at this; exact absurd rfl this
          have hih := ih w recs2 hchain2.2 hlast2 har
          have hhead2 : (g2 :: rest2).head?.map Prod.fst = some true := by
            simp [hg2true]
          rw [hhead2] at hih
          simp at hih
          have hcnt : cmdCount ((false, ls) :: g2 :: rest2) = cmdCount (g2 :: rest2) := by
            simp [cmdCount]
          rw [hcnt]
          simp [hih]

/-- Claim C3 (amended): when the transcript begins with a command line and
does not end with one, parsing yields exactly one record per command line
(each with any immediately following run of non-command lines attached as its
output).  A command line at the very end of the transcript, with no following
output, is dropped by the parser rather than yielded. -/
theorem parse_cli_log_record_count (log : List String) (recs : List (List String))
    (a z : String)
    (hparse : parse_cli_log log = some recs)
    (hhead : (log.map pyRstrip).head? = some a) (hheadCmd : isCmdLine a = true)
    (hlast : (log.map pyRstrip).getLast? = some z) (hlastCmd : isCmdLine z = false) :
    recs.length = (log.map pyRstrip).countP isCmdLine := by
  cases hL : log.map pyRstrip with
  | nil => rw [hL] at hhead; simp at hhead
  | cons a0 tail =>
    have ha0 : a0 = a := by
      rw [hL] at hhead
      simpa using hhead
    have hheadCmd0 : isCmdLine a0 = true := by rw [ha0]; exact hheadCmd
    obtain ⟨g, gs, hgrp⟩ := groupByKey_head isCmdLine a0 tail
    have hkeys := groupByKey_keys isCmdLine (a0 :: tail)
    have hchain := groupByKey_chain isCmdLine (a0 :: tail)
    have hjoin := groupByKey_join isCmdLine (a0 :: tail)
    rw [hL] at hlast
    have hlastkey : (groupByKey isCmdLine (a0 :: tail)).getLast?.map Prod.fst =
        some (isCmdLine z) :=
      joinGroups_getLastKey isCmdLine _ hkeys z (by rw [hjoin]; exact hlast)
    rw [hlastCmd] at hlastkey
    have hparse2 : parse_cli_log_aux [] (groupByKey isCmdLine (a0 :: tail)) = some recs := by
      rw [← hL]
      exact hparse
    have hlen := parse_cli_log_aux_length _ [] recs hchain hlastkey hparse2
    have hheadkey : (groupByKey isCmdLine (a0 :: tail)).head?.map Prod.fst = some true := by
      rw [hgrp]
      simp [hheadCmd0]
    rw [hheadkey] at hlen
    simp at hlen
    rw [hlen]
    rw [cmdCount_eq_countP isCmdLine _ (fun g2 hg2 => (hkeys g2 hg2).2)]
    rw [hjoin]

/-- Counterexample to claim C3 as stated: a transcript consisting of the single
command line `$ cd /` (a command line at the very end with no following
output) parses to zero records, not one. -/
theorem parse_cli_log_drops_trailing_command :
    parse_cli_log ["$ cd /"] = some [] ∧
    (["$ cd /"].map pyRstrip).countP isCmdLine = 1 := ⟨rfl, rfl⟩

/-- Witness for C3 (amended): a command line followed by one output line
yields exactly one record. -/
theorem parse_cli_log_record_count_witness :
    parse_cli_log ["$ cd /", "dir a"] = some [["cd", "/", "dir a"]] ∧
    ([["cd", "/", "dir a"]] : List (List String)).length =
      (["$ cd /", "dir a"].map pyRstrip).countP isCmdLine := by
  refine ⟨rfl, ?_⟩
  exact parse_cli_log_record_count ["$ cd /", "dir a"] [["cd", "/", "dir a"]]
    "$ cd /" "dir a" rfl rfl rfl rfl rfl

/-! ## first_unique_window (C9) -/

theorem lastN_append_last (n : Nat) (xs : List Char) (c : Char) :
    lastN n (lastN n xs ++ [c]) = lastN n (xs ++ [c]) := by
  unfold lastN
  by_cases h0 : n = 0
  · subst h0
    simp [List.drop_length]
  · by_cases h : xs.length ≤ n
    · have h1 : xs.length - n = 0 := by omega
      rw [h1, List.drop_zero]
    · have hys : (xs.drop (xs.length - n)).length = n := by
        rw [List.length_drop]
        omega
      rw [List.length_append, List.length_append, hys]
      have h1 : n + [c].length - n = 1 := by simp
      have h2 : xs.length + [c].length - n = (xs.length - n + 1) := by
        simp only [List.length_cons, List.length_nil]
        omega
      rw [h1, h2]
      rw [List.drop_append_eq_append_drop, List.drop_append_eq_append_drop]
      rw [List.drop_drop]
      have h3 : 1 - (xs.drop (xs.length - n)).length = 0 := by
        rw [hys]
        omega
      have h4 : xs.length - n + 1 - xs.length = 0 := by omega
      rw [h3, h4]

theorem dedup_length_le (l : List Char) : l.dedup.length ≤ l.length :=
  (List.dedup_sublist l).length_le

theorem dedup_length_eq_iff (l : List Char) : l.dedup.length = l.length ↔ l.Nodup := by
  constructor
  · intro h
    exact List.dedup_eq_self.mp ((List.dedup_sublist l).eq_of_length h)
  · intro h
    rw [h.dedup]

/-- Claim C9 (amended): whenever the first run of `n` distinct characters
starts at position `s` and at least one character follows the run
(`s + n < length`), `first_unique_window` returns `s + n` — the index just
past the run, not the index `s` where the run starts. -/
theorem first_unique_window_finds_run (l : List Char) (n s : Nat)
    (hlen : s + n < l.length)
    (hrun : ((l.drop s).take n).Nodup)
    (hmin : ∀ t, t < s → ¬ ((l.drop t).take n).Nodup) :
    first_unique_window l n = ((s + n : Nat) : Int) := by
  have main : ∀ (cs : List Char) (idx : Nat), l.drop idx = cs → idx ≤ s + n →
      fuwGo n cs (lastN n (l.take idx)) idx = ((s + n : Nat) : Int) := by
    intro cs
    induction cs with
    | nil =>
      intro idx hcs hidx
      have hle : l.length ≤ idx := List.drop_eq_nil_iff.mp hcs
      omega
    | cons c cs2 ih =>
      intro idx hcs hidx
      have hidxlt : idx < l.length := by
        by_contra hge
        push_neg at hge
        rw [List.drop_eq_nil_iff.mpr hge] at hcs
        exact List.noConfusion hcs
      have hdrop := List.drop_eq_getElem_cons hidxlt
      rw [hcs] at hdrop
      have hc : c = l[idx] := (List.cons.injEq _ _ _ _ ▸ hdrop).1
      have hcs2 : l.drop (idx + 1) = cs2 := ((List.cons.injEq _ _ _ _ ▸ hdrop).2).symm
      rcases Nat.lt_or_ge idx (s + n) with hlt | hge
      · have hblen : (lastN n (l.take idx)).length = min idx n := by
          unfold lastN
          rw [List.length_drop, List.length_take]
          omega
        have hcheck : ¬ ((lastN n (l.take idx)).dedup.length = n) := by
          intro hdl
          have hle1 : (lastN n (l.take idx)).dedup.length ≤ min idx n := by
            rw [← hblen]
            exact dedup_length_le _
          have hn_le : n ≤ idx := by omega
          have heq : (lastN n (l.take idx)).dedup.length = (lastN n (l.take idx)).length := by
            rw [hblen]
            omega
          have hnd : (lastN n (l.take idx)).Nodup := (dedup_length_eq_iff _).mp heq
          have hwin : lastN n (l.take idx) = (l.drop (idx - n)).take n := by
            unfold lastN
            rw [List.length_take]
            have hmin2 : min idx l.length = idx := by omega
            rw [hmin2, List.drop_take]
            have : idx - (idx - n) = n := by omega
            rw [this]
          rw [hwin] at hnd
          exact hmin (idx - n) (by omega) hnd
        simp only [fuwGo]
        rw [if_neg hcheck]
        have hbuf : lastN n (lastN n (l.take idx) ++ [c]) = lastN n (l.take (idx + 1)) := by
          rw [lastN_append_last]
          congr 1
          rw [List.take_succ, List.getElem?_eq_getElem hidxlt, hc]
          rfl
        rw [hbuf]
        exact ih (idx + 1) hcs2 (by omega)
      · have hidxeq : idx = s + n := by omega
        subst hidxeq
        have hbufeq : lastN n (l.take (s + n)) = (l.drop s).take n := by
          unfold lastN
          rw [List.length_take]
          have hmin2 : min (s + n) l.length = s + n := by omega
          rw [hmin2]
          have h2 : s + n - n = s := by omega
          rw [h2, List.drop_take]
          have h3 : s + n - s = n := by omega
          rw [h3]
        simp only [fuwGo]
        rw [hbufeq, if_pos]
        rw [hrun.dedup, List.length_take, List.length_drop]
        omega
  have h0 : lastN n (l.take 0) = [] := by
    unfold lastN
    simp
  have hmain := main l 0 rfl (by omega)
  rw [h0] at hmain
  exact hmain

/-- Counterexample to claim C9 as stated: the sequence `ab` contains a run of
2 distinct characters starting at index 0, but the function returns -1, not 0
(the check happens before the append, so a run flush against the end of the
sequence is never seen). -/
theorem first_unique_window_misses_final_run :
    first_unique_window ['a', 'b'] 2 = -1 ∧ (['a', 'b'] : List Char).Nodup := by
  exact ⟨rfl, by decide⟩

/-- Witness for C9 (amended): in `aabc` the first run of 2 distinct characters
starts at index 1 and the function returns 3 = 1 + 2. -/
theorem first_unique_window_finds_run_witness :
    (((['a', 'a', 'b', 'c'] : List Char).drop 1).take 2).Nodup ∧
    first_unique_window ['a', 'a', 'b', 'c'] 2 = ((1 + 2 : Nat) : Int) := by
  refine ⟨by decide, ?_⟩
  refine first_unique_window_finds_run ['a', 'a', 'b', 'c'] 2 1 (by decide) (by decide) ?_
  intro t ht
  have h0 : t = 0 := by omega
  subst h0
  decide

/-! ## day_one (C8) -/

/-- Claim C8 names the intended behaviour (the docstring's "sum of top-n
elves"), but the code pushes the RUNNING total into the heap on every line, so
intermediate prefix sums of one group can crowd out whole other groups.  On
`4, 6, blank, 3` with `num_elves = 2` the code returns a second component of
14 (prefixes 4 and 10 of the first group fill the heap; 3 never displaces 4),
while the sum of the top 2 group sums is 10 + 3 = 13. -/
theorem day_one_counts_prefixes :
    day_one ["4", "6", "", "3"] 2 = some (10, 14) ∧
    specGroupSums ["4", "6", "", "3"] 0 = [10, 3] ∧
    specTopSum ["4", "6", "", "3"] 2 = 13 ∧ ((14 : Int) ≠ 13) := by
  refine ⟨rfl, rfl, rfl, by decide⟩

end Aoc2022
